import Mathlib

/-!
Verification of a reference-counted shared/weak pointer library
(`src/shared-ptr.h`, `src/shared-ptr.cpp`).

The development shallowly embeds the library.  Since all interesting claims
concern handles sharing one control block, the operational model `St` tracks
one distinguished control block (its two counters and two event counters
recording how often the managed object was destroyed and how often the block
storage was freed) together with the lists of live shared and weak handles.
In every reachable state of `run`, a handle's control-block field is either
null or the tracked block, so the boolean `att` field of a handle faithfully
represents "cb_ is non-null" (it points to the tracked block exactly when
`att = true`).

Counter mutation is translated from `src/shared-ptr.cpp`:
`release_strong_ref` decrements the strong counter and, on reaching zero,
runs `delete_data()` (modelled by incrementing `destroyed`) and then
`release_weak_ref`; `release_weak_ref` decrements the weak counter and, on
reaching zero, frees the block (modelled by incrementing `freed`).  The
counters are `size_t` in the source; in every reachable state a release is
only performed while the corresponding counter is at least 1, so natural
number subtraction agrees with the source.
-/

namespace SharedPtr

/-- A raw pointer value: `none` is `nullptr`, `some a` a non-null address. -/
abbrev Ptr := Option Nat

/-- A `shared_ptr<T>` handle: observer pointer `ptr_` and whether `cb_`
points at the tracked control block (`att = false` means `cb_ == nullptr`
in reachable states of the one-block model). -/
structure SH where
  ptr : Ptr
  att : Bool
deriving DecidableEq, Repr

/-- A `weak_ptr<T>` handle, same two-field shape as `SH`. -/
structure WH where
  ptr : Ptr
  att : Bool
deriving DecidableEq, Repr

/-- State of the tracked control block plus all handles ever created for it.
`shs`/`whs` slots are `none` once the handle at that index was destroyed. -/
structure St where
  strong : Nat
  weak : Nat
  destroyed : Nat
  freed : Nat
  shs : List (Option SH)
  whs : List (Option WH)
deriving DecidableEq, Repr

/-- `control_block_base::add_strong_ref`: `strong_refs_++`. -/
def add_strong_ref (st : St) : St := { st with strong := st.strong + 1 }

/-- `control_block_base::add_weak_ref`: `weak_refs_++`. -/
def add_weak_ref (st : St) : St := { st with weak := st.weak + 1 }

/-- `control_block_base::release_weak_ref`: `if (--weak_refs_ == 0) delete this;`
Freeing the block is recorded by incrementing `freed`. -/
def release_weak_ref (st : St) : St :=
  if st.weak - 1 = 0 then
    { st with weak := st.weak - 1, freed := st.freed + 1 }
  else
    { st with weak := st.weak - 1 }

/-- `control_block_base::release_strong_ref`:
`if (--strong_refs_ == 0) { delete_data(); release_weak_ref(); }`
Running `delete_data()` is recorded by incrementing `destroyed`. -/
def release_strong_ref (st : St) : St :=
  if st.strong - 1 = 0 then
    release_weak_ref { st with strong := st.strong - 1, destroyed := st.destroyed + 1 }
  else
    { st with strong := st.strong - 1 }

/-- `shared_ptr() noexcept : ptr_(nullptr), cb_(nullptr)`. -/
def SH.null : SH := ⟨none, false⟩

/-- The private constructor `shared_ptr(T* ptr, control_block_t* cb)`:
stores both fields and calls `add_strong_ref` when `cb` is non-null. -/
def mkShared (p : Ptr) (att : Bool) (st : St) : SH × St :=
  (⟨p, att⟩, if att = true then add_strong_ref st else st)

/-- `~shared_ptr()`: `if (cb_) cb_->release_strong_ref();`. -/
def SH.release (h : SH) (st : St) : St :=
  if h.att = true then release_strong_ref st else st

/-- The private constructor `weak_ptr(T* ptr, control_block_t* cb)`:
stores both fields and calls `add_weak_ref` when `cb` is non-null. -/
def mkWeak (p : Ptr) (att : Bool) (st : St) : WH × St :=
  (⟨p, att⟩, if att = true then add_weak_ref st else st)

/-- `~weak_ptr()`: `if (cb_) cb_->release_weak_ref();`. -/
def WH.release (w : WH) (st : St) : St :=
  if w.att = true then release_weak_ref st else st

/-- `weak_ptr::lock()`: returns a null handle when `cb_` is null or the
strong count is zero, otherwise `shared_ptr<T>(ptr_, cb_)` (which adds a
strong reference). -/
def lockFn (w : WH) (st : St) : SH × St :=
  if w.att = false ∨ st.strong = 0 then (SH.null, st)
  else mkShared w.ptr w.att st

/-- `shared_ptr::get()`: `return ptr_;`. -/
def SH.get (h : SH) : Ptr := h.ptr

/-- `shared_ptr::operator bool()`: `return ptr_;` (pointer-to-bool). -/
def SH.toBool (h : SH) : Bool := h.ptr.isSome

/-- `shared_ptr::use_count()`: `return cb_ ? cb_->get_strong_refs() : 0;`
(for a handle of the tracked block, `cb_` non-null iff `att`). -/
def use_count (h : SH) (st : St) : Nat :=
  if h.att = true then st.strong else 0

/-- The live handle stored in shared slot `i`, if any. -/
def getSh (st : St) (i : Nat) : Option SH := (st.shs[i]?).getD none

/-- The live handle stored in weak slot `i`, if any. -/
def getWh (st : St) (i : Nat) : Option WH := (st.whs[i]?).getD none

/-- Overwrite shared slot `i`. -/
def setShSlot (st : St) (i : Nat) (x : Option SH) : St :=
  { st with shs := st.shs.set i x }

/-- Overwrite weak slot `i`. -/
def setWhSlot (st : St) (i : Nat) (x : Option WH) : St :=
  { st with whs := st.whs.set i x }

/-- Append a freshly constructed shared handle (a new live slot). -/
def pushSh (st : St) (h : SH) : St := { st with shs := st.shs ++ [some h] }

/-- Append a freshly constructed weak handle (a new live slot). -/
def pushWh (st : St) (w : WH) : St := { st with whs := st.whs ++ [some w] }

/-- Whether a shared slot holds a handle attached to the tracked block. -/
def shAtt (s : Option SH) : Bool :=
  match s with
  | some h => h.att
  | none => false

/-- Whether a weak slot holds a handle attached to the tracked block. -/
def whAtt (s : Option WH) : Bool :=
  match s with
  | some w => w.att
  | none => false

/-- Number of live strong holders of the tracked block. -/
def nStrong (l : List (Option SH)) : Nat := l.countP shAtt

/-- Number of live weak holders of the tracked block. -/
def nWeak (l : List (Option WH)) : Nat := l.countP whAtt

/-- The user-visible operations on handles of the tracked block, by slot
index.  Operations on dead or out-of-range slots are no-ops, so every list
of operations denotes a run. -/
inductive Op where
  | shCopy (i : Nat)
  | shMove (i : Nat)
  | shAliasCopy (i : Nat) (p : Ptr)
  | shAliasMove (i : Nat) (p : Ptr)
  | shCopyAssign (dst src : Nat)
  | shMoveAssign (dst src : Nat)
  | shReset (i : Nat)
  | shDestroy (i : Nat)
  | wFromSh (i : Nat)
  | wCopy (i : Nat)
  | wMove (i : Nat)
  | wCopyAssign (dst src : Nat)
  | wMoveAssign (dst src : Nat)
  | wReset (i : Nat)
  | wDestroy (i : Nat)
  | wLock (i : Nat)
deriving DecidableEq, Repr

/-- One operation.  Each case is translated from the corresponding member
of `shared_ptr` / `weak_ptr` in `src/shared-ptr.h`:

* `shCopy i`: the copy constructor delegates to the aliasing copy
  constructor with `other.ptr_`, which delegates to `shared_ptr(ptr, cb)`.
* `shMove i`: the move constructor delegates to the aliasing move
  constructor with `other.ptr_`; it exchanges `other.cb_` with null and
  nulls `other.ptr_`, with no counter mutation.
* `shCopyAssign`/`shMoveAssign`: `shared_ptr(other).swap(*this)` resp.
  `shared_ptr(std::move(other)).swap(*this)`; the temporary's destructor
  then releases the destination's previous reference.  For move assignment
  the source is nulled by the temporary's construction before the swap, so
  self-move-assignment is handled exactly as in the source.
* `shReset i`: `shared_ptr().swap(*this)` followed by the temporary's
  destructor releasing the previous reference.
* `wFromSh`/`wCopy`: delegate to `weak_ptr(ptr, cb)` which adds a weak
  reference when `cb` is non-null.
* `wLock i`: `lock()`; the produced `shared_ptr` is kept as a new slot. -/
def step (st : St) : Op → St
  | .shCopy i =>
    match getSh st i with
    | some h =>
      let r := mkShared h.ptr h.att st
      pushSh r.2 r.1
    | none => st
  | .shMove i =>
    match getSh st i with
    | some h => pushSh (setShSlot st i (some SH.null)) ⟨h.ptr, h.att⟩
    | none => st
  | .shAliasCopy i p =>
    match getSh st i with
    | some h =>
      let r := mkShared p h.att st
      pushSh r.2 r.1
    | none => st
  | .shAliasMove i p =>
    match getSh st i with
    | some h => pushSh (setShSlot st i (some SH.null)) ⟨p, h.att⟩
    | none => st
  | .shCopyAssign dst src =>
    match getSh st dst, getSh st src with
    | some hd, some hs =>
      let r := mkShared hs.ptr hs.att st
      SH.release hd (setShSlot r.2 dst (some r.1))
    | _, _ => st
  | .shMoveAssign dst src =>
    match getSh st dst, getSh st src with
    | some _, some hs =>
      let st1 := setShSlot st src (some SH.null)
      match getSh st1 dst with
      | some hd => SH.release hd (setShSlot st1 dst (some hs))
      | none => st1
    | _, _ => st
  | .shReset i =>
    match getSh st i with
    | some h => SH.release h (setShSlot st i (some SH.null))
    | none => st
  | .shDestroy i =>
    match getSh st i with
    | some h => SH.release h (setShSlot st i none)
    | none => st
  | .wFromSh i =>
    match getSh st i with
    | some h =>
      let r := mkWeak h.ptr h.att st
      pushWh r.2 r.1
    | none => st
  | .wCopy i =>
    match getWh st i with
    | some w =>
      let r := mkWeak w.ptr w.att st
      pushWh r.2 r.1
    | none => st
  | .wMove i =>
    match getWh st i with
    | some w => pushWh (setWhSlot st i (some ⟨none, false⟩)) ⟨w.ptr, w.att⟩
    | none => st
  | .wCopyAssign dst src =>
    match getWh st dst, getWh st src with
    | some wd, some ws =>
      let r := mkWeak ws.ptr ws.att st
      WH.release wd (setWhSlot r.2 dst (some r.1))
    | _, _ => st
  | .wMoveAssign dst src =>
    match getWh st dst, getWh st src with
    | some _, some ws =>
      let st1 := setWhSlot st src (some ⟨none, false⟩)
      match getWh st1 dst with
      | some wd => WH.release wd (setWhSlot st1 dst (some ws))
      | none => st1
    | _, _ => st
  | .wReset i =>
    match getWh st i with
    | some w => WH.release w (setWhSlot st i (some ⟨none, false⟩))
    | none => st
  | .wDestroy i =>
    match getWh st i with
    | some w => WH.release w (setWhSlot st i none)
    | none => st
  | .wLock i =>
    match getWh st i with
    | some w =>
      let r := lockFn w st
      pushSh r.2 r.1
    | none => st

/-- Initial state: a control block freshly created by
`shared_ptr(Y*, Deleter)` (via `new mem_control_block`) or by `make_shared`
(via `new inplace_control_block`), whose counters start at
`strong_refs_ = 1, weak_refs_ = 1`, adopted by one shared handle with
observer pointer `p0` and no extra increment. -/
def init (p0 : Ptr) : St :=
  { strong := 1, weak := 1, destroyed := 0, freed := 0
    shs := [some ⟨p0, true⟩], whs := [] }

/-- Run a sequence of operations from the initial state. -/
def run (p0 : Ptr) (ops : List Op) : St := ops.foldl step (init p0)

/-- The control-block invariant of the one-block model: the strong counter
equals the number of live strong holders; the weak counter equals the
number of live weak holders plus the block's implicit weak reference, which
exists until the managed object is destroyed; the object has been destroyed
exactly once as soon as (and only when) the strong counter is zero; the
block storage has been freed exactly once as soon as (and only when) the
weak counter is zero. -/
def InvSt (st : St) : Prop :=
  st.strong = nStrong st.shs ∧
  st.weak = nWeak st.whs + (if st.strong = 0 then 0 else 1) ∧
  st.destroyed = (if st.strong = 0 then 1 else 0) ∧
  st.freed = (if st.weak = 0 then 1 else 0)

instance (st : St) : Decidable (InvSt st) := by
  unfold InvSt
  infer_instance

/-- `shared_ptr::reset(Y* new_ptr)` / `reset(Y* new_ptr, Deleter deleter)`:
`shared_ptr(new_ptr[, deleter]).swap(*this)`.  The replacement handle is
constructed first; it allocates a fresh control block distinct from the
tracked one, so the installed handle is detached from the tracked block
(`att = false` records only non-attachment to the tracked block).
`allocOk = false` models the allocation inside `shared_ptr(Y*, Deleter)`
throwing: the deleter is invoked on `new_ptr` (recorded in the returned
list) and the exception propagates before any swap, leaving the handle and
the tracked block untouched.  On success the swap installs the replacement
at slot `i` and the temporary's destructor releases the old reference. -/
def reset_new (allocOk : Bool) (st : St) (i : Nat) (p : Ptr) :
    St × List Ptr × Bool :=
  if allocOk then
    match getSh st i with
    | some h => (SH.release h (setShSlot st i (some ⟨p, false⟩)), [], true)
    | none => (st, [], true)
  else (st, [p], false)

/-- `operator==(const shared_ptr<TL>&, const shared_ptr<TR>&)`:
`return lhs.get() == rhs.get();`. -/
def shEq (a b : SH) : Bool := a.get == b.get

/-- `operator==(const shared_ptr<T>&, std::nullptr_t)`:
`return !lhs.get();` (true exactly when the observer pointer is null). -/
def shEqNull (a : SH) : Bool := a.get == none

/-- A `mem_control_block<T, Deleter>` of `src/shared-ptr.h`: counters start
at `strong_refs_ = 1, weak_refs_ = 1` (`control_block_base`), `data_` holds
the raw pointer.  The deleter value itself carries no state relevant to the
claims; deleter invocations are logged by `RawCtor.deleterCalls`. -/
structure MemCB where
  strong : Nat
  weak : Nat
  data : Ptr
deriving DecidableEq, Repr

/-- `mem_control_block(T* ptr, Deleter deleter)`. -/
def mem_control_block (p : Ptr) : MemCB := ⟨1, 1, p⟩

/-- A `shared_ptr<T>` handle holding (by value, for this local model) the
`mem_control_block` it points to, or `none` for a null `cb_`. -/
structure SHr where
  ptr : Ptr
  cb : Option MemCB
deriving DecidableEq, Repr

/-- Outcome of running `shared_ptr(Y* ptr, Deleter deleter)`:
`result = none` means the constructor exited by exception (no handle
exists); `deleterCalls` lists the arguments of every deleter invocation
made, in order. -/
structure RawCtor where
  result : Option SHr
  deleterCalls : List Ptr
deriving DecidableEq, Repr

/-- `shared_ptr(Y* ptr, Deleter deleter)` (and `shared_ptr(Y* ptr)`, which
delegates to it with `std::default_delete<Y>`): sets `ptr_ = ptr`, then
`try { cb_ = new mem_control_block(ptr, deleter); } catch (...) {
deleter(ptr); throw; }`.  `allocOk` models whether the control-block
allocation succeeds. -/
def sharedFromRaw (allocOk : Bool) (p : Ptr) : RawCtor :=
  if allocOk then
    { result := some ⟨p, some (mem_control_block p)⟩, deleterCalls := [] }
  else
    { result := none, deleterCalls := [p] }

/-- `use_count()` on an `SHr`: `cb_ ? cb_->get_strong_refs() : 0`. -/
def SHr.use_count (h : SHr) : Nat :=
  match h.cb with
  | some cb => cb.strong
  | none => 0

/-- `operator bool()` on an `SHr`: `return ptr_;`. -/
def SHr.toBool (h : SHr) : Bool := h.ptr.isSome

/-- `get()` on an `SHr`: `return ptr_;`. -/
def SHr.get (h : SHr) : Ptr := h.ptr

/-- An `inplace_control_block<T>`: counters start at 1/1, `addr` is the
address of the embedded `storage_.data`, and `data` the value constructed
in place from the forwarded arguments. -/
structure InplaceCB (α : Type) where
  strong : Nat
  weak : Nat
  addr : Nat
  data : α
deriving DecidableEq, Repr

/-- `inplace_control_block(Args&&... args)`:
`std::construct_at(&storage_.data, std::forward<Args>(args)...)`; the
constructed value is `a`, the embedded storage lives at `addr`. -/
def inplace_control_block {α : Type} (addr : Nat) (a : α) : InplaceCB α :=
  ⟨1, 1, addr, a⟩

/-- `inplace_control_block::get_ptr()`: `return &storage_.data;`. -/
def InplaceCB.get_ptr {α : Type} (cb : InplaceCB α) : Nat := cb.addr

/-- A `shared_ptr<T>` handle holding (by value, for this local model) the
`inplace_control_block` it points to. -/
structure SHi (α : Type) where
  ptr : Ptr
  cb : Option (InplaceCB α)
deriving DecidableEq, Repr

/-- The private constructor `shared_ptr(inplace_control_block<T>* cb)`:
`ptr_(cb->get_ptr()), cb_(cb)` — adopts the block's initial strong count
without calling `add_strong_ref`. -/
def sharedFromInplace {α : Type} (cb : InplaceCB α) : SHi α :=
  ⟨some cb.get_ptr, some cb⟩

/-- `make_shared<T>(Args&&... args)`:
`auto cb = new inplace_control_block<T>(args...); return shared_ptr<T>(cb);`. -/
def make_shared {α : Type} (addr : Nat) (a : α) : SHi α :=
  sharedFromInplace (inplace_control_block addr a)

/-- `use_count()` on an `SHi`: `cb_ ? cb_->get_strong_refs() : 0`. -/
def SHi.use_count {α : Type} (h : SHi α) : Nat :=
  match h.cb with
  | some cb => cb.strong
  | none => 0

/-- `get()` on an `SHi`: `return ptr_;`. -/
def SHi.get {α : Type} (h : SHi α) : Ptr := h.ptr

/-- Safety relation between a state and its successor: the invariant is
re-established, a counter already at zero stays at zero, and each counter
decreases by at most one in a single operation. -/
def Good (st st2 : St) : Prop :=
  InvSt st2 ∧
  (st.strong = 0 → st2.strong = 0) ∧ st.strong ≤ st2.strong + 1 ∧
  (st.weak = 0 → st2.weak = 0) ∧ st.weak ≤ st2.weak + 1

theorem good_refl (st : St) (h : InvSt st) : Good st st :=
  ⟨h, fun hz => hz, Nat.le_succ _, fun hz => hz, Nat.le_succ _⟩

theorem getSh_eq (st : St) (i : Nat) (h : SH) :
    getSh st i = some h ↔ st.shs[i]? = some (some h) := by
  unfold getSh
  cases hx : st.shs[i]? with
  | none => simp
  | some v => simp [hx]

theorem getWh_eq (st : St) (i : Nat) (w : WH) :
    getWh st i = some w ↔ st.whs[i]? = some (some w) := by
  unfold getWh
  cases hx : st.whs[i]? with
  | none => simp
  | some v => simp [hx]

theorem countP_set_add {α : Type} (p : α → Bool) :
    ∀ (l : List α) (i : Nat) (a b : α), l[i]? = some a →
      (l.set i b).countP p + (if p a then 1 else 0) =
        l.countP p + (if p b then 1 else 0) := by
  intro l
  induction l with
  | nil => intro i a b hx; simp at hx
  | cons x t ih =>
    intro i a b hx
    cases i with
    | zero =>
      simp only [List.getElem?_cons_zero, Option.some.injEq] at hx
      subst hx
      simp only [List.set_cons_zero, List.countP_cons]
      omega
    | succ n =>
      simp only [List.getElem?_cons_succ] at hx
      simp only [List.set_cons_succ, List.countP_cons]
      have := ih n a b hx
      omega

theorem countP_at_pos {α : Type} (p : α → Bool) (l : List α) (i : Nat) (a : α)
    (hx : l[i]? = some a) (hp : p a = true) : 1 ≤ l.countP p := by
  have hm : a ∈ l := List.getElem?_mem hx
  have := List.countP_pos_iff (p := p) (l := l).mpr ⟨a, hm, hp⟩
  omega

theorem set_getElem_id {α : Type} :
    ∀ (l : List α) (i : Nat) (a : α), l[i]? = some a → l.set i a = l := by
  intro l
  induction l with
  | nil => intro i a hx; simp at hx
  | cons x t ih =>
    intro i a hx
    cases i with
    | zero =>
      simp only [List.getElem?_cons_zero, Option.some.injEq] at hx
      subst hx
      simp
    | succ n =>
      simp only [List.getElem?_cons_succ] at hx
      simp [ih n a hx]

/-- Effect of `release_strong_ref` on a state in which the handle being
released has already been removed from the holder list (so the strong
counter exceeds the count of remaining holders by one). -/
theorem release_strong_spec (st : St)
    (h1 : st.strong = nStrong st.shs + 1)
    (h2 : st.weak = nWeak st.whs + 1)
    (h3 : st.destroyed = 0) (h4 : st.freed = 0) :
    InvSt (release_strong_ref st) ∧
    (release_strong_ref st).strong + 1 = st.strong ∧
    st.weak ≤ (release_strong_ref st).weak + 1 ∧
    (release_strong_ref st).weak ≤ st.weak ∧
    (release_strong_ref st).shs = st.shs ∧
    (release_strong_ref st).whs = st.whs := by
  have hwne : ¬ st.weak = 0 := by omega
  by_cases hs : st.strong - 1 = 0
  · by_cases hw : st.weak - 1 = 0
    · have e1 : release_strong_ref st =
          { st with strong := st.strong - 1, destroyed := st.destroyed + 1,
                    weak := st.weak - 1, freed := st.freed + 1 } := by
        simp [release_strong_ref, release_weak_ref, hs, hw]
      rw [e1]; unfold InvSt
      refine ⟨⟨?_, ?_, ?_, ?_⟩, ?_, ?_, ?_, ?_, ?_⟩ <;>
        (try simp [hs, hw, hwne]) <;> omega
    · have e1 : release_strong_ref st =
          { st with strong := st.strong - 1, destroyed := st.destroyed + 1,
                    weak := st.weak - 1 } := by
        simp [release_strong_ref, release_weak_ref, hs, hw]
      rw [e1]; unfold InvSt
      refine ⟨⟨?_, ?_, ?_, ?_⟩, ?_, ?_, ?_, ?_, ?_⟩ <;>
        (try simp [hs, hw, hwne]) <;> omega
  · have e1 : release_strong_ref st = { st with strong := st.strong - 1 } := by
      simp [release_strong_ref, hs]
    rw [e1]; unfold InvSt
    refine ⟨⟨?_, ?_, ?_, ?_⟩, ?_, ?_, ?_, ?_, ?_⟩ <;>
      (try simp [hs, hwne]) <;> omega

/-- Effect of `release_weak_ref` on a state in which the weak handle being
released has already been removed from the weak-holder list. -/
theorem release_weak_spec (st : St)
    (h1 : st.strong = nStrong st.shs)
    (h2 : st.weak = nWeak st.whs + 1 + (if st.strong = 0 then 0 else 1))
    (h3 : st.destroyed = (if st.strong = 0 then 1 else 0))
    (h4 : st.freed = 0) :
    InvSt (release_weak_ref st) ∧
    (release_weak_ref st).weak + 1 = st.weak ∧
    (release_weak_ref st).strong = st.strong ∧
    (release_weak_ref st).shs = st.shs ∧
    (release_weak_ref st).whs = st.whs := by
  by_cases hz : st.strong = 0 <;> simp only [hz, if_true, if_false, if_pos, if_neg,
    reduceIte] at h2 h3 <;>
  by_cases hw : st.weak - 1 = 0
  · have e1 : release_weak_ref st =
        { st with weak := st.weak - 1, freed := st.freed + 1 } := by
      simp [release_weak_ref, hw]
    rw [e1]; unfold InvSt
    refine ⟨⟨?_, ?_, ?_, ?_⟩, ?_, ?_, ?_, ?_⟩ <;> (try simp [hz, hw]) <;> omega
  · have e1 : release_weak_ref st = { st with weak := st.weak - 1 } := by
      simp [release_weak_ref, hw]
    rw [e1]; unfold InvSt
    refine ⟨⟨?_, ?_, ?_, ?_⟩, ?_, ?_, ?_, ?_⟩ <;> (try simp [hz, hw]) <;> omega
  · have e1 : release_weak_ref st =
        { st with weak := st.weak - 1, freed := st.freed + 1 } := by
      simp [release_weak_ref, hw]
    rw [e1]; unfold InvSt
    refine ⟨⟨?_, ?_, ?_, ?_⟩, ?_, ?_, ?_, ?_⟩ <;> (try simp [hz, hw]) <;> omega
  · have e1 : release_weak_ref st = { st with weak := st.weak - 1 } := by
      simp [release_weak_ref, hw]
    rw [e1]; unfold InvSt
    refine ⟨⟨?_, ?_, ?_, ?_⟩, ?_, ?_, ?_, ?_⟩ <;> (try simp [hz, hw]) <;> omega

theorem nStrong_append (l : List (Option SH)) (x : Option SH) :
    nStrong (l ++ [x]) = nStrong l + (if shAtt x = true then 1 else 0) := by
  simp [nStrong, List.countP_append, List.countP_cons]

theorem nWeak_append (l : List (Option WH)) (x : Option WH) :
    nWeak (l ++ [x]) = nWeak l + (if whAtt x = true then 1 else 0) := by
  simp [nWeak, List.countP_append, List.countP_cons]

theorem nStrong_set (l : List (Option SH)) (i : Nat) (a b : Option SH)
    (hx : l[i]? = some a) :
    nStrong (l.set i b) + (if shAtt a = true then 1 else 0) =
      nStrong l + (if shAtt b = true then 1 else 0) :=
  countP_set_add shAtt l i a b hx

theorem nWeak_set (l : List (Option WH)) (i : Nat) (a b : Option WH)
    (hx : l[i]? = some a) :
    nWeak (l.set i b) + (if whAtt a = true then 1 else 0) =
      nWeak l + (if whAtt b = true then 1 else 0) :=
  countP_set_add whAtt l i a b hx

theorem shAtt_some (h : SH) : shAtt (some h) = h.att := rfl

theorem att_null : SH.null.att = false := rfl

theorem strong_pos_of_att (st : St) (hInv : InvSt st) (i : Nat) (h : SH)
    (hg : getSh st i = some h) (ha : h.att = true) : 1 ≤ st.strong := by
  have hx := (getSh_eq st i h).mp hg
  have hc := countP_at_pos shAtt st.shs i (some h) hx (by simp [shAtt, ha])
  have h1 := hInv.1
  unfold nStrong at h1
  omega

theorem weak_pos_of_att (st : St) (hInv : InvSt st) (i : Nat) (w : WH)
    (hg : getWh st i = some w) (ha : w.att = true) : 1 ≤ st.weak := by
  have hx := (getWh_eq st i w).mp hg
  have hc := countP_at_pos whAtt st.whs i (some w) hx (by simp [whAtt, ha])
  have h2 := hInv.2.1
  unfold nWeak at h2
  by_cases hz : st.strong = 0 <;> simp [hz] at h2 <;> omega

theorem weak_pos_of_strong_pos (st : St) (hInv : InvSt st)
    (hs : 1 ≤ st.strong) : 1 ≤ st.weak := by
  have h2 := hInv.2.1
  have hz : ¬ st.strong = 0 := by omega
  simp [hz] at h2
  omega

/-- A transition that keeps all four counters and only rearranges the
handle lists without changing either holder count is `Good`. -/
theorem good_of_counts (st : St) (hInv : InvSt st)
    (l2 : List (Option SH)) (m2 : List (Option WH))
    (hl : nStrong l2 = nStrong st.shs) (hm : nWeak m2 = nWeak st.whs) :
    Good st { st with shs := l2, whs := m2 } := by
  obtain ⟨h1, h2, h3, h4⟩ := hInv
  exact ⟨⟨by simpa [hl], by simpa [hm], by simpa, by simpa⟩,
    fun hz => hz, Nat.le_succ _, fun hz => hz, Nat.le_succ _⟩

/-- A transition performing `add_strong_ref` for one new strong holder. -/
theorem good_attach_push (st : St) (hInv : InvSt st) (hpos : 1 ≤ st.strong)
    (l2 : List (Option SH)) (hl : nStrong l2 = nStrong st.shs + 1) :
    Good st { st with strong := st.strong + 1, shs := l2 } := by
  obtain ⟨h1, h2, h3, h4⟩ := hInv
  have hz : ¬ st.strong = 0 := by omega
  rw [if_neg hz] at h2
  rw [if_neg hz] at h3
  unfold Good InvSt
  simp only [hl]
  rw [if_neg (by omega : ¬ st.strong + 1 = 0)]
  rw [if_neg (by omega : ¬ st.strong + 1 = 0)]
  refine ⟨⟨by omega, by omega, by omega, h4⟩, by omega, by omega, fun hzz => hzz,
    by omega⟩

/-- A transition performing `add_weak_ref` for one new weak holder. -/
theorem good_attach_push_weak (st : St) (hInv : InvSt st) (hpos : 1 ≤ st.weak)
    (m2 : List (Option WH)) (hm : nWeak m2 = nWeak st.whs + 1) :
    Good st { st with weak := st.weak + 1, whs := m2 } := by
  obtain ⟨h1, h2, h3, h4⟩ := hInv
  have hwz : ¬ st.weak = 0 := by omega
  rw [if_neg hwz] at h4
  unfold Good InvSt
  simp only [hm]
  rw [if_neg (by omega : ¬ st.weak + 1 = 0)]
  refine ⟨⟨h1, by omega, h3, by omega⟩, fun hzz => hzz, by omega, by omega,
    by omega⟩

/-- A transition that removes one strong holder from the list (possibly
adding `k` other strong references first, as assignment does) and then
runs `release_strong_ref`. -/
theorem good_release_sh (st : St) (hInv : InvSt st) (k : Nat)
    (l2 : List (Option SH)) (hl : nStrong l2 + 1 = nStrong st.shs + k)
    (hz : ¬ st.strong = 0) :
    Good st (release_strong_ref { st with strong := st.strong + k, shs := l2 }) := by
  obtain ⟨h1, h2, h3, h4⟩ := hInv
  rw [if_neg hz] at h2
  rw [if_neg hz] at h3
  have hwz : ¬ st.weak = 0 := by omega
  rw [if_neg hwz] at h4
  have spec := release_strong_spec { st with strong := st.strong + k, shs := l2 }
    (by simp; omega) (by simp; omega) (by simp; omega) (by simp; omega)
  obtain ⟨si, s2, s3, s4, s5, s6⟩ := spec
  simp only [] at s2 s3 s4
  refine ⟨si, fun hzz => absurd hzz hz, ?_, fun hzz => absurd hzz hwz, ?_⟩
  · try simp at s2
    omega
  · try simp at s3 s4
    omega

/-- A transition that removes one weak holder from the list (possibly
adding `k` other weak references first, as assignment does) and then runs
`release_weak_ref`. -/
theorem good_release_wh (st : St) (hInv : InvSt st) (k : Nat)
    (m2 : List (Option WH)) (hm : nWeak m2 + 1 = nWeak st.whs + k)
    (hwpos : 1 ≤ st.weak) :
    Good st (release_weak_ref { st with weak := st.weak + k, whs := m2 }) := by
  obtain ⟨h1, h2, h3, h4⟩ := hInv
  have hwz : ¬ st.weak = 0 := by omega
  rw [if_neg hwz] at h4
  have spec := release_weak_spec { st with weak := st.weak + k, whs := m2 }
    (by simp; omega) (by simp; omega) (by simp; omega) (by simp; omega)
  obtain ⟨si, s2, s3, s4, s5⟩ := spec
  refine ⟨si, ?_, ?_, fun hzz => absurd hzz hwz, ?_⟩
  · try simp at s3
    omega
  · try simp at s3
    omega
  · try simp at s2
    omega

/-- Every operation preserves the control-block invariant, never revives a
counter that already reached zero, and decreases each counter by at most
one. -/
theorem step_good (st : St) (op : Op) (hInv : InvSt st) : Good st (step st op) := by
  cases op with
  | shCopy i =>
    cases hg : getSh st i with
    | none => simpa [step, hg] using good_refl st hInv
    | some h =>
      cases hatt : h.att with
      | false =>
        have e : step st (.shCopy i) = pushSh st ⟨h.ptr, false⟩ := by
          simp [step, hg, mkShared, hatt]
        rw [e]
        exact good_of_counts st hInv _ _ (by rw [nStrong_append]; simp [shAtt]) rfl
      | true =>
        have e : step st (.shCopy i) =
            { st with strong := st.strong + 1, shs := st.shs ++ [some ⟨h.ptr, true⟩] } := by
          simp [step, hg, mkShared, hatt, add_strong_ref, pushSh]
        rw [e]
        exact good_attach_push st hInv (strong_pos_of_att st hInv i h hg hatt) _
          (by rw [nStrong_append]; simp [shAtt])
  | shMove i =>
    cases hg : getSh st i with
    | none => simpa [step, hg] using good_refl st hInv
    | some h =>
      have hx := (getSh_eq st i h).mp hg
      have e : step st (.shMove i) =
          { st with shs := (st.shs.set i (some SH.null)) ++ [some ⟨h.ptr, h.att⟩] } := by
        simp [step, hg, pushSh, setShSlot]
      rw [e]
      refine good_of_counts st hInv _ _ ?_ rfl
      have hset := nStrong_set st.shs i (some h) (some SH.null) hx
      rw [nStrong_append]
      simp [shAtt, SH.null] at hset ⊢
      omega
  | shAliasCopy i p =>
    cases hg : getSh st i with
    | none => simpa [step, hg] using good_refl st hInv
    | some h =>
      cases hatt : h.att with
      | false =>
        have e : step st (.shAliasCopy i p) = pushSh st ⟨p, false⟩ := by
          simp [step, hg, mkShared, hatt]
        rw [e]
        exact good_of_counts st hInv _ _ (by rw [nStrong_append]; simp [shAtt]) rfl
      | true =>
        have e : step st (.shAliasCopy i p) =
            { st with strong := st.strong + 1, shs := st.shs ++ [some ⟨p, true⟩] } := by
          simp [step, hg, mkShared, hatt, add_strong_ref, pushSh]
        rw [e]
        exact good_attach_push st hInv (strong_pos_of_att st hInv i h hg hatt) _
          (by rw [nStrong_append]; simp [shAtt])
  | shAliasMove i p =>
    cases hg : getSh st i with
    | none => simpa [step, hg] using good_refl st hInv
    | some h =>
      have hx := (getSh_eq st i h).mp hg
      have e : step st (.shAliasMove i p) =
          { st with shs := (st.shs.set i (some SH.null)) ++ [some ⟨p, h.att⟩] } := by
        simp [step, hg, pushSh, setShSlot]
      rw [e]
      refine good_of_counts st hInv _ _ ?_ rfl
      have hset := nStrong_set st.shs i (some h) (some SH.null) hx
      rw [nStrong_append]
      simp [shAtt, SH.null] at hset ⊢
      omega
  | shCopyAssign dst src =>
    cases hgd : getSh st dst with
    | none => simpa [step, hgd] using good_refl st hInv
    | some hd =>
      cases hgs : getSh st src with
      | none => simpa [step, hgd, hgs] using good_refl st hInv
      | some hs =>
        have hxd := (getSh_eq st dst hd).mp hgd
        cases hatts : hs.att with
        | false =>
          cases hattd : hd.att with
          | false =>
            have e : step st (.shCopyAssign dst src) =
                { st with shs := st.shs.set dst (some ⟨hs.ptr, false⟩) } := by
              simp [step, hgd, hgs, mkShared, hatts, SH.release, hattd, setShSlot]
            rw [e]
            refine good_of_counts st hInv _ _ ?_ rfl
            have hset := nStrong_set st.shs dst (some hd) (some ⟨hs.ptr, false⟩) hxd
            simp [shAtt, hattd] at hset
            omega
          | true =>
            have e : step st (.shCopyAssign dst src) =
                release_strong_ref { st with shs := st.shs.set dst (some ⟨hs.ptr, false⟩) } := by
              simp [step, hgd, hgs, mkShared, hatts, SH.release, hattd, setShSlot]
            rw [e]
            have hset := nStrong_set st.shs dst (some hd) (some ⟨hs.ptr, false⟩) hxd
            simp [shAtt, hattd] at hset
            have hz : ¬ st.strong = 0 := by
              have := strong_pos_of_att st hInv dst hd hgd hattd
              omega
            exact good_release_sh st hInv 0 _ (by omega) hz
        | true =>
          cases hattd : hd.att with
          | false =>
            have e : step st (.shCopyAssign dst src) =
                { st with strong := st.strong + 1,
                          shs := st.shs.set dst (some ⟨hs.ptr, true⟩) } := by
              simp [step, hgd, hgs, mkShared, hatts, add_strong_ref, SH.release, hattd,
                setShSlot]
            rw [e]
            refine good_attach_push st hInv
              (strong_pos_of_att st hInv src hs hgs hatts) _ ?_
            have hset := nStrong_set st.shs dst (some hd) (some ⟨hs.ptr, true⟩) hxd
            simp [shAtt, hattd] at hset
            omega
          | true =>
            have e : step st (.shCopyAssign dst src) =
                release_strong_ref
                  { st with strong := st.strong + 1,
                            shs := st.shs.set dst (some ⟨hs.ptr, true⟩) } := by
              simp [step, hgd, hgs, mkShared, hatts, add_strong_ref, SH.release, hattd,
                setShSlot]
            rw [e]
            have hset := nStrong_set st.shs dst (some hd) (some ⟨hs.ptr, true⟩) hxd
            simp [shAtt, hattd] at hset
            have hz : ¬ st.strong = 0 := by
              have := strong_pos_of_att st hInv dst hd hgd hattd
              omega
            exact good_release_sh st hInv 1 _ (by omega) hz
  | shMoveAssign dst src =>
    cases hgd : getSh st dst with
    | none => simpa [step, hgd] using good_refl st hInv
    | some hd =>
      cases hgs : getSh st src with
      | none => simpa [step, hgd, hgs] using good_refl st hInv
      | some hs =>
        have hxd := (getSh_eq st dst hd).mp hgd
        have hxs := (getSh_eq st src hs).mp hgs
        by_cases hds : dst = src
        · subst hds
          have hhd : hd = hs := by
            rw [hgd] at hgs
            injection hgs
          subst hhd
          have hlt : dst < st.shs.length := by
            rcases List.getElem?_eq_some_iff.mp hxd with ⟨hl, _⟩
            exact hl
          have hst1 : getSh (setShSlot st dst (some SH.null)) dst = some SH.null := by
            rw [getSh_eq]
            simp [setShSlot, List.getElem?_set_self hlt]
          have e : step st (.shMoveAssign dst dst) =
              setShSlot (setShSlot st dst (some SH.null)) dst (some hd) := by
            simp only [step, hgd, hst1]
            simp [SH.release, SH.null]
          have e2 : setShSlot (setShSlot st dst (some SH.null)) dst (some hd) = st := by
            have h3 : st.shs.set dst (some hd) = st.shs :=
              set_getElem_id st.shs dst (some hd) hxd
            simp [setShSlot, List.set_set, h3]
          rw [e, e2]
          exact good_refl st hInv
        · have hst1 : getSh (setShSlot st src (some SH.null)) dst = some hd := by
            rw [getSh_eq]
            simpa [setShSlot, List.getElem?_set_ne (fun hh => hds hh.symm)] using hxd
          have hx1 : (st.shs.set src (some SH.null))[dst]? = some (some hd) := by
            rw [List.getElem?_set_ne (fun hh => hds hh.symm)]
            exact hxd
          cases hattd : hd.att with
          | false =>
            have e : step st (.shMoveAssign dst src) =
                { st with shs := (st.shs.set src (some SH.null)).set dst (some hs) } := by
              simp only [step, hgd, hgs, hst1]
              simp [SH.release, hattd, setShSlot]
            rw [e]
            refine good_of_counts st hInv _ _ ?_ rfl
            have hset1 := nStrong_set st.shs src (some hs) (some SH.null) hxs
            have hset2 := nStrong_set (st.shs.set src (some SH.null)) dst (some hd)
              (some hs) hx1
            cases hatts : hs.att <;>
              simp [shAtt, SH.null, hattd, hatts] at hset1 hset2 ⊢ <;> omega
          | true =>
            have e : step st (.shMoveAssign dst src) =
                release_strong_ref
                  { st with shs := (st.shs.set src (some SH.null)).set dst (some hs) } := by
              simp only [step, hgd, hgs, hst1]
              simp [SH.release, hattd, setShSlot]
            rw [e]
            have hset1 := nStrong_set st.shs src (some hs) (some SH.null) hxs
            have hset2 := nStrong_set (st.shs.set src (some SH.null)) dst (some hd)
              (some hs) hx1
            have hz : ¬ st.strong = 0 := by
              have := strong_pos_of_att st hInv dst hd hgd hattd
              omega
            have hcount : nStrong ((st.shs.set src (some SH.null)).set dst (some hs)) + 1 =
                nStrong st.shs + 0 := by
              cases hatts : hs.att <;>
                simp [shAtt, SH.null, hattd, hatts] at hset1 hset2 ⊢ <;> omega
            exact good_release_sh st hInv 0 _ hcount hz
  | shReset i =>
    cases hg : getSh st i with
    | none => simpa [step, hg] using good_refl st hInv
    | some h =>
      have hx := (getSh_eq st i h).mp hg
      cases hatt : h.att with
      | false =>
        have e : step st (.shReset i) =
            { st with shs := st.shs.set i (some SH.null) } := by
          simp [step, hg, SH.release, hatt, setShSlot]
        rw [e]
        refine good_of_counts st hInv _ _ ?_ rfl
        have hset := nStrong_set st.shs i (some h) (some SH.null) hx
        simp [shAtt_some, att_null, hatt] at hset
        omega
      | true =>
        have e : step st (.shReset i) =
            release_strong_ref { st with shs := st.shs.set i (some SH.null) } := by
          simp [step, hg, SH.release, hatt, setShSlot]
        rw [e]
        have hset := nStrong_set st.shs i (some h) (some SH.null) hx
        simp [shAtt_some, att_null, hatt] at hset
        have hz : ¬ st.strong = 0 := by
          have := strong_pos_of_att st hInv i h hg hatt
          omega
        exact good_release_sh st hInv 0 _ (by omega) hz
  | shDestroy i =>
    cases hg : getSh st i with
    | none => simpa [step, hg] using good_refl st hInv
    | some h =>
      have hx := (getSh_eq st i h).mp hg
      cases hatt : h.att with
      | false =>
        have e : step st (.shDestroy i) = { st with shs := st.shs.set i none } := by
          simp [step, hg, SH.release, hatt, setShSlot]
        rw [e]
        refine good_of_counts st hInv _ _ ?_ rfl
        have hset := nStrong_set st.shs i (some h) none hx
        simp [shAtt, hatt] at hset
        omega
      | true =>
        have e : step st (.shDestroy i) =
            release_strong_ref { st with shs := st.shs.set i none } := by
          simp [step, hg, SH.release, hatt, setShSlot]
        rw [e]
        have hset := nStrong_set st.shs i (some h) none hx
        simp [shAtt, hatt] at hset
        have hz : ¬ st.strong = 0 := by
          have := strong_pos_of_att st hInv i h hg hatt
          omega
        exact good_release_sh st hInv 0 _ (by omega) hz
  | wFromSh i =>
    cases hg : getSh st i with
    | none => simpa [step, hg] using good_refl st hInv
    | some h =>
      cases hatt : h.att with
      | false =>
        have e : step st (.wFromSh i) = pushWh st ⟨h.ptr, false⟩ := by
          simp [step, hg, mkWeak, hatt]
        rw [e]
        exact good_of_counts st hInv _ _ rfl (by rw [nWeak_append]; simp [whAtt])
      | true =>
        have e : step st (.wFromSh i) =
            { st with weak := st.weak + 1, whs := st.whs ++ [some ⟨h.ptr, true⟩] } := by
          simp [step, hg, mkWeak, hatt, add_weak_ref, pushWh]
        rw [e]
        exact good_attach_push_weak st hInv
          (weak_pos_of_strong_pos st hInv (strong_pos_of_att st hInv i h hg hatt)) _
          (by rw [nWeak_append]; simp [whAtt])
  | wCopy i =>
    cases hg : getWh st i with
    | none => simpa [step, hg] using good_refl st hInv
    | some w =>
      cases hatt : w.att with
      | false =>
        have e : step st (.wCopy i) = pushWh st ⟨w.ptr, false⟩ := by
          simp [step, hg, mkWeak, hatt]
        rw [e]
        exact good_of_counts st hInv _ _ rfl (by rw [nWeak_append]; simp [whAtt])
      | true =>
        have e : step st (.wCopy i) =
            { st with weak := st.weak + 1, whs := st.whs ++ [some ⟨w.ptr, true⟩] } := by
          simp [step, hg, mkWeak, hatt, add_weak_ref, pushWh]
        rw [e]
        exact good_attach_push_weak st hInv (weak_pos_of_att st hInv i w hg hatt) _
          (by rw [nWeak_append]; simp [whAtt])
  | wMove i =>
    cases hg : getWh st i with
    | none => simpa [step, hg] using good_refl st hInv
    | some w =>
      have hx := (getWh_eq st i w).mp hg
      have e : step st (.wMove i) =
          { st with whs := (st.whs.set i (some ⟨none, false⟩)) ++ [some ⟨w.ptr, w.att⟩] } := by
        simp [step, hg, pushWh, setWhSlot]
      rw [e]
      refine good_of_counts st hInv _ _ rfl ?_
      have hset := nWeak_set st.whs i (some w) (some ⟨none, false⟩) hx
      rw [nWeak_append]
      simp [whAtt] at hset ⊢
      omega
  | wCopyAssign dst src =>
    cases hgd : getWh st dst with
    | none => simpa [step, hgd] using good_refl st hInv
    | some wd =>
      cases hgs : getWh st src with
      | none => simpa [step, hgd, hgs] using good_refl st hInv
      | some ws =>
        have hxd := (getWh_eq st dst wd).mp hgd
        cases hatts : ws.att with
        | false =>
          cases hattd : wd.att with
          | false =>
            have e : step st (.wCopyAssign dst src) =
                { st with whs := st.whs.set dst (some ⟨ws.ptr, false⟩) } := by
              simp [step, hgd, hgs, mkWeak, hatts, WH.release, hattd, setWhSlot]
            rw [e]
            refine good_of_counts st hInv _ _ rfl ?_
            have hset := nWeak_set st.whs dst (some wd) (some ⟨ws.ptr, false⟩) hxd
            simp [whAtt, hattd] at hset
            omega
          | true =>
            have e : step st (.wCopyAssign dst src) =
                release_weak_ref { st with whs := st.whs.set dst (some ⟨ws.ptr, false⟩) } := by
              simp [step, hgd, hgs, mkWeak, hatts, WH.release, hattd, setWhSlot]
            rw [e]
            have hset := nWeak_set st.whs dst (some wd) (some ⟨ws.ptr, false⟩) hxd
            simp [whAtt, hattd] at hset
            exact good_release_wh st hInv 0 _ (by omega)
              (weak_pos_of_att st hInv dst wd hgd hattd)
        | true =>
          cases hattd : wd.att with
          | false =>
            have e : step st (.wCopyAssign dst src) =
                { st with weak := st.weak + 1,
                          whs := st.whs.set dst (some ⟨ws.ptr, true⟩) } := by
              simp [step, hgd, hgs, mkWeak, hatts, add_weak_ref, WH.release, hattd,
                setWhSlot]
            rw [e]
            refine good_attach_push_weak st hInv
              (weak_pos_of_att st hInv src ws hgs hatts) _ ?_
            have hset := nWeak_set st.whs dst (some wd) (some ⟨ws.ptr, true⟩) hxd
            simp [whAtt, hattd] at hset
            omega
          | true =>
            have e : step st (.wCopyAssign dst src) =
                release_weak_ref
                  { st with weak := st.weak + 1,
                            whs := st.whs.set dst (some ⟨ws.ptr, true⟩) } := by
              simp [step, hgd, hgs, mkWeak, hatts, add_weak_ref, WH.release, hattd,
                setWhSlot]
            rw [e]
            have hset := nWeak_set st.whs dst (some wd) (some ⟨ws.ptr, true⟩) hxd
            simp [whAtt, hattd] at hset
            exact good_release_wh st hInv 1 _ (by omega)
              (weak_pos_of_att st hInv dst wd hgd hattd)
  | wMoveAssign dst src =>
    cases hgd : getWh st dst with
    | none => simpa [step, hgd] using good_refl st hInv
    | some wd =>
      cases hgs : getWh st src with
      | none => simpa [step, hgd, hgs] using good_refl st hInv
      | some ws =>
        have hxd := (getWh_eq st dst wd).mp hgd
        have hxs := (getWh_eq st src ws).mp hgs
        by_cases hds : dst = src
        · subst hds
          have hhd : wd = ws := by
            rw [hgd] at hgs
            injection hgs
          subst hhd
          have hlt : dst < st.whs.length := by
            rcases List.getElem?_eq_some_iff.mp hxd with ⟨hl, _⟩
            exact hl
          have hst1 : getWh (setWhSlot st dst (some ⟨none, false⟩)) dst =
              some ⟨none, false⟩ := by
            rw [getWh_eq]
            simp [setWhSlot, List.getElem?_set_self hlt]
          have e : step st (.wMoveAssign dst dst) =
              setWhSlot (setWhSlot st dst (some ⟨none, false⟩)) dst (some wd) := by
            simp only [step, hgd, hst1]
            simp [WH.release]
          have e2 : setWhSlot (setWhSlot st dst (some ⟨none, false⟩)) dst (some wd) = st := by
            have h3 : st.whs.set dst (some wd) = st.whs :=
              set_getElem_id st.whs dst (some wd) hxd
            simp [setWhSlot, List.set_set, h3]
          rw [e, e2]
          exact good_refl st hInv
        · have hst1 : getWh (setWhSlot st src (some ⟨none, false⟩)) dst = some wd := by
            rw [getWh_eq]
            simpa [setWhSlot, List.getElem?_set_ne (fun hh => hds hh.symm)] using hxd
          have hx1 : (st.whs.set src (some ⟨none, false⟩))[dst]? = some (some wd) := by
            rw [List.getElem?_set_ne (fun hh => hds hh.symm)]
            exact hxd
          cases hattd : wd.att with
          | false =>
            have e : step st (.wMoveAssign dst src) =
                { st with whs := (st.whs.set src (some ⟨none, false⟩)).set dst (some ws) } := by
              simp only [step, hgd, hgs, hst1]
              simp [WH.release, hattd, setWhSlot]
            rw [e]
            refine good_of_counts st hInv _ _ rfl ?_
            have hset1 := nWeak_set st.whs src (some ws) (some ⟨none, false⟩) hxs
            have hset2 := nWeak_set (st.whs.set src (some ⟨none, false⟩)) dst (some wd)
              (some ws) hx1
            cases hatts : ws.att <;>
              simp [whAtt, hattd, hatts] at hset1 hset2 <;> omega
          | true =>
            have e : step st (.wMoveAssign dst src) =
                release_weak_ref
                  { st with whs := (st.whs.set src (some ⟨none, false⟩)).set dst (some ws) } := by
              simp only [step, hgd, hgs, hst1]
              simp [WH.release, hattd, setWhSlot]
            rw [e]
            have hset1 := nWeak_set st.whs src (some ws) (some ⟨none, false⟩) hxs
            have hset2 := nWeak_set (st.whs.set src (some ⟨none, false⟩)) dst (some wd)
              (some ws) hx1
            have hcount : nWeak ((st.whs.set src (some ⟨none, false⟩)).set dst (some ws)) + 1 =
                nWeak st.whs + 0 := by
              cases hatts : ws.att <;>
                simp [whAtt, hattd, hatts] at hset1 hset2 <;> omega
            exact good_release_wh st hInv 0 _ hcount
              (weak_pos_of_att st hInv dst wd hgd hattd)
  | wReset i =>
    cases hg : getWh st i with
    | none => simpa [step, hg] using good_refl st hInv
    | some w =>
      have hx := (getWh_eq st i w).mp hg
      cases hatt : w.att with
      | false =>
        have e : step st (.wReset i) =
            { st with whs := st.whs.set i (some ⟨none, false⟩) } := by
          simp [step, hg, WH.release, hatt, setWhSlot]
        rw [e]
        refine good_of_counts st hInv _ _ rfl ?_
        have hset := nWeak_set st.whs i (some w) (some ⟨none, false⟩) hx
        simp [whAtt, hatt] at hset
        omega
      | true =>
        have e : step st (.wReset i) =
            release_weak_ref { st with whs := st.whs.set i (some ⟨none, false⟩) } := by
          simp [step, hg, WH.release, hatt, setWhSlot]
        rw [e]
        have hset := nWeak_set st.whs i (some w) (some ⟨none, false⟩) hx
        simp [whAtt, hatt] at hset
        exact good_release_wh st hInv 0 _ (by omega)
          (weak_pos_of_att st hInv i w hg hatt)
  | wDestroy i =>
    cases hg : getWh st i with
    | none => simpa [step, hg] using good_refl st hInv
    | some w =>
      have hx := (getWh_eq st i w).mp hg
      cases hatt : w.att with
      | false =>
        have e : step st (.wDestroy i) = { st with whs := st.whs.set i none } := by
          simp [step, hg, WH.release, hatt, setWhSlot]
        rw [e]
        refine good_of_counts st hInv _ _ rfl ?_
        have hset := nWeak_set st.whs i (some w) none hx
        simp [whAtt, hatt] at hset
        omega
      | true =>
        have e : step st (.wDestroy i) =
            release_weak_ref { st with whs := st.whs.set i none } := by
          simp [step, hg, WH.release, hatt, setWhSlot]
        rw [e]
        have hset := nWeak_set st.whs i (some w) none hx
        simp [whAtt, hatt] at hset
        exact good_release_wh st hInv 0 _ (by omega)
          (weak_pos_of_att st hInv i w hg hatt)
  | wLock i =>
    cases hg : getWh st i with
    | none => simpa [step, hg] using good_refl st hInv
    | some w =>
      by_cases hc : w.att = false ∨ st.strong = 0
      · have e : step st (.wLock i) = pushSh st SH.null := by
          simp [step, hg, lockFn, hc]
        rw [e]
        exact good_of_counts st hInv _ _
          (by rw [nStrong_append]; simp [shAtt, SH.null]) rfl
      · obtain ⟨ha, hsz⟩ := not_or.mp hc
        have hat : w.att = true := by
          revert ha
          cases w.att <;> simp
        have e : step st (.wLock i) =
            { st with strong := st.strong + 1, shs := st.shs ++ [some ⟨w.ptr, true⟩] } := by
          simp [step, hg, lockFn, hat, hsz, mkShared, add_strong_ref, pushSh]
        rw [e]
        exact good_attach_push st hInv (by omega) _
          (by rw [nStrong_append]; simp [shAtt])

/-- The initial state satisfies the invariant. -/
theorem init_inv (p0 : Ptr) : InvSt (init p0) := by
  unfold InvSt init nStrong nWeak
  simp [shAtt, List.countP_cons]

theorem foldl_inv (ops : List Op) :
    ∀ st : St, InvSt st → InvSt (ops.foldl step st) := by
  induction ops with
  | nil => intro st h; exact h
  | cons op t ih => intro st h; exact ih (step st op) (step_good st op h).1

/-- Every reachable state satisfies the control-block invariant. -/
theorem run_inv (p0 : Ptr) (ops : List Op) : InvSt (run p0 ops) :=
  foldl_inv ops (init p0) (init_inv p0)

theorem release_strong_fields (st : St) :
    (release_strong_ref st).shs = st.shs ∧ (release_strong_ref st).whs = st.whs := by
  unfold release_strong_ref release_weak_ref
  by_cases h1 : st.strong - 1 = 0 <;> by_cases h2 : st.weak - 1 = 0 <;> simp [h1, h2]

theorem release_strong_strong (st : St) :
    (release_strong_ref st).strong = st.strong - 1 := by
  unfold release_strong_ref release_weak_ref
  by_cases h1 : st.strong - 1 = 0 <;> by_cases h2 : st.weak - 1 = 0 <;> simp [h1, h2]

theorem release_weak_fields (st : St) :
    (release_weak_ref st).shs = st.shs ∧ (release_weak_ref st).whs = st.whs ∧
      (release_weak_ref st).strong = st.strong := by
  unfold release_weak_ref
  by_cases h2 : st.weak - 1 = 0 <;> simp [h2]

theorem release_weak_weak (st : St) :
    (release_weak_ref st).weak = st.weak - 1 := by
  unfold release_weak_ref
  by_cases h2 : st.weak - 1 = 0 <;> simp [h2]

/-- Claim C1: for every finite sequence of copy construction, move
construction, copy/move assignment, reset, and destruction operations
applied to shared handles sharing one control block, calling `use_count()`
on any live handle of that block returns exactly the number of live strong
holders of the block at that point. -/
theorem claim_C1_use_count_exact (p0 : Ptr) (ops : List Op) (i : Nat) (h : SH)
    (hg : getSh (run p0 ops) i = some h) (ha : h.att = true) :
    use_count h (run p0 ops) = nStrong (run p0 ops).shs := by
  have hI := run_inv p0 ops
  unfold use_count
  rw [if_pos ha]
  exact hI.1

theorem claim_C1_witness :
    use_count ⟨some 1, true⟩ (run (some 1) [.shCopy 0, .wFromSh 0, .shReset 0]) =
      nStrong (run (some 1) [.shCopy 0, .wFromSh 0, .shReset 0]).shs :=
  claim_C1_use_count_exact (some 1) [.shCopy 0, .wFromSh 0, .shReset 0] 1
    ⟨some 1, true⟩ (by decide) (by decide)

/-- Claim C2: in every operation sequence on handles of one control block,
the managed object's destroy hook runs exactly once, at the step where the
strong count transitions from 1 to 0, and the block's storage is
deallocated exactly once, at the step where the weak count transitions
from 1 to 0, which never precedes the object's destruction; object
destruction itself releases the implicit weak reference (last conjunct:
the weak counter counts the live weak holders plus one exactly until the
object is destroyed). -/
theorem claim_C2_destroy_free_once (p0 : Ptr) (ops : List Op) (op : Op) :
    ((run p0 ops).destroyed ≤ 1 ∧ (run p0 ops).freed ≤ 1 ∧
      ((run p0 ops).destroyed = 1 ↔ (run p0 ops).strong = 0) ∧
      ((run p0 ops).freed = 1 ↔ (run p0 ops).weak = 0) ∧
      (run p0 ops).freed ≤ (run p0 ops).destroyed) ∧
    ((step (run p0 ops) op).destroyed = (run p0 ops).destroyed + 1 ↔
      ((run p0 ops).strong = 1 ∧ (step (run p0 ops) op).strong = 0)) ∧
    ((step (run p0 ops) op).freed = (run p0 ops).freed + 1 ↔
      ((run p0 ops).weak = 1 ∧ (step (run p0 ops) op).weak = 0)) ∧
    (run p0 ops).weak =
      nWeak (run p0 ops).whs + (if (run p0 ops).destroyed = 1 then 0 else 1) := by
  have hI := run_inv p0 ops
  have hG := step_good (run p0 ops) op hI
  revert hI hG
  generalize run p0 ops = st
  generalize step st op = st2
  intro hI hG
  obtain ⟨h1, h2, h3, h4⟩ := hI
  obtain ⟨⟨g1, g2, g3, g4⟩, z1, d1, z2, d2⟩ := hG
  refine ⟨?_, ?_, ?_, ?_⟩
  · by_cases hz : st.strong = 0 <;> by_cases hw : st.weak = 0 <;>
      simp [hz, hw] at h2 h3 h4 ⊢ <;> omega
  · constructor
    · intro hEq
      by_cases hz : st.strong = 0
      · have hz2 := z1 hz
        rw [if_pos hz] at h3
        rw [if_pos hz2] at g3
        omega
      · by_cases hz2 : st2.strong = 0
        · rw [if_neg hz] at h3
          exact ⟨by omega, hz2⟩
        · rw [if_neg hz] at h3
          rw [if_neg hz2] at g3
          omega
    · rintro ⟨ha, hb⟩
      rw [if_pos hb] at g3
      rw [if_neg (by omega : ¬ st.strong = 0)] at h3
      omega
  · constructor
    · intro hEq
      by_cases hw : st.weak = 0
      · have hw2 := z2 hw
        rw [if_pos hw] at h4
        rw [if_pos hw2] at g4
        omega
      · by_cases hw2 : st2.weak = 0
        · rw [if_neg hw] at h4
          exact ⟨by omega, hw2⟩
        · rw [if_neg hw] at h4
          rw [if_neg hw2] at g4
          omega
    · rintro ⟨ha, hb⟩
      rw [if_pos hb] at g4
      rw [if_neg (by omega : ¬ st.weak = 0)] at h4
      omega
  · by_cases hz : st.strong = 0
    · rw [if_pos hz] at h2 h3
      rw [h3]
      simpa using h2
    · rw [if_neg hz] at h2 h3
      rw [h3]
      simpa using h2

theorem claim_C2_witness :
    (step (run (some 1) []) (.shDestroy 0)).destroyed =
      (run (some 1) []).destroyed + 1 :=
  (claim_C2_destroy_free_once (some 1) [] (.shDestroy 0)).2.1.mpr
    ⟨by decide, by decide⟩

/-- Claim C4: for every weak handle `w`, `w.lock()` returns a null shared
handle when `w`'s block is null or the block's strong count is 0;
otherwise it returns a shared handle that shares `w`'s block and observer
pointer and has incremented the strong count by exactly 1. -/
theorem claim_C4_lock (st : St) (i : Nat) (w : WH) (hg : getWh st i = some w) :
    ((w.att = false ∨ st.strong = 0) → step st (.wLock i) = pushSh st SH.null) ∧
    (w.att = true → ¬ st.strong = 0 →
      step st (.wLock i) = pushSh (add_strong_ref st) ⟨w.ptr, true⟩) := by
  constructor
  · intro hc
    simp [step, hg, lockFn, hc]
  · intro ha hz
    simp [step, hg, lockFn, ha, hz, mkShared]

theorem claim_C4_witness :
    step (run (some 1) [.wFromSh 0, .shDestroy 0]) (.wLock 0) =
      pushSh (run (some 1) [.wFromSh 0, .shDestroy 0]) SH.null :=
  (claim_C4_lock (run (some 1) [.wFromSh 0, .shDestroy 0]) 0 ⟨some 1, true⟩
    (by decide)).1 (by decide)

/-- Claim C3 counterexample: after resetting the only handle and
aliasing-copying from it with explicit pointer 5, the reachable handle in
slot 1 has a null block (`att = false`) while `get()` returns 5, not null —
refuting "if its block field is null ... get() returns null", precisely in
the aliasing-from-null-source case the claim singles out. -/
theorem claim_C3_counterexample :
    getSh (run (some 1) [.shReset 0, .shAliasCopy 0 (some 5)]) 1 =
      some ⟨some 5, false⟩ ∧
    ¬ SH.get ⟨some 5, false⟩ = none := by decide

/-- Claim C3 amended: every reachable shared or weak handle satisfies: if
its block field is null the handle owns no reference — `use_count()` is 0
and destroying it changes no counter — though `get()` still returns the
stored observer pointer (which aliasing constructors may set non-null); if
its block field is non-null the handle accounts for exactly one reference
of its kind (the count is at least 1) and releases exactly one on
destruction or reassignment: on destruction, on `reset()`, and on being
the destination of a copy or move assignment from a distinct handle, the
count of its kind drops by exactly 1 (copy assignment additionally adds
one reference for the new copy; self-move-assignment is a no-op in the
source, so it releases nothing). -/
theorem claim_C3_amended (p0 : Ptr) (ops : List Op) (i : Nat) :
    (∀ h, getSh (run p0 ops) i = some h →
      (h.att = false → use_count h (run p0 ops) = 0 ∧
        step (run p0 ops) (.shDestroy i) =
          { run p0 ops with shs := (run p0 ops).shs.set i none }) ∧
      (h.att = true → 1 ≤ use_count h (run p0 ops) ∧
        (step (run p0 ops) (.shDestroy i)).strong + 1 = (run p0 ops).strong ∧
        (step (run p0 ops) (.shReset i)).strong + 1 = (run p0 ops).strong ∧
        (∀ src hs, getSh (run p0 ops) src = some hs →
          (step (run p0 ops) (.shCopyAssign i src)).strong + 1 =
            (run p0 ops).strong + (if hs.att = true then 1 else 0)) ∧
        (∀ src hs, getSh (run p0 ops) src = some hs → ¬ i = src →
          (step (run p0 ops) (.shMoveAssign i src)).strong + 1 =
            (run p0 ops).strong))) ∧
    (∀ w, getWh (run p0 ops) i = some w →
      (w.att = false → step (run p0 ops) (.wDestroy i) =
        { run p0 ops with whs := (run p0 ops).whs.set i none }) ∧
      (w.att = true →
        (step (run p0 ops) (.wDestroy i)).weak + 1 = (run p0 ops).weak ∧
        (step (run p0 ops) (.wReset i)).weak + 1 = (run p0 ops).weak ∧
        (∀ src ws, getWh (run p0 ops) src = some ws →
          (step (run p0 ops) (.wCopyAssign i src)).weak + 1 =
            (run p0 ops).weak + (if ws.att = true then 1 else 0)) ∧
        (∀ src ws, getWh (run p0 ops) src = some ws → ¬ i = src →
          (step (run p0 ops) (.wMoveAssign i src)).weak + 1 =
            (run p0 ops).weak))) := by
  have hI := run_inv p0 ops
  revert hI
  generalize run p0 ops = st
  intro hI
  constructor
  · intro h hg
    constructor
    · intro hatt
      constructor
      · simp [use_count, hatt]
      · simp [step, hg, SH.release, hatt, setShSlot]
    · intro hatt
      have hpos := strong_pos_of_att st hI i h hg hatt
      refine ⟨by simpa [use_count, hatt] using hpos, ?_, ?_, ?_, ?_⟩
      · have e : step st (.shDestroy i) =
            release_strong_ref { st with shs := st.shs.set i none } := by
          simp [step, hg, SH.release, hatt, setShSlot]
        rw [e, release_strong_strong]
        try simp
        omega
      · have e : step st (.shReset i) =
            release_strong_ref { st with shs := st.shs.set i (some SH.null) } := by
          simp [step, hg, SH.release, hatt, setShSlot]
        rw [e, release_strong_strong]
        try simp
        omega
      · intro src hs hgs
        cases hatts : hs.att with
        | false =>
          have e : step st (.shCopyAssign i src) =
              release_strong_ref
                { st with shs := st.shs.set i (some ⟨hs.ptr, false⟩) } := by
            simp [step, hg, hgs, mkShared, hatts, SH.release, hatt, setShSlot]
          rw [e, release_strong_strong]
          simp [hatts]
          omega
        | true =>
          have e : step st (.shCopyAssign i src) =
              release_strong_ref
                { st with strong := st.strong + 1,
                          shs := st.shs.set i (some ⟨hs.ptr, true⟩) } := by
            simp [step, hg, hgs, mkShared, hatts, add_strong_ref, SH.release, hatt,
              setShSlot]
          rw [e, release_strong_strong]
          simp [hatts]
      · intro src hs hgs hds
        have hxd := (getSh_eq st i h).mp hg
        have hst1 : getSh (setShSlot st src (some SH.null)) i = some h := by
          rw [getSh_eq]
          simpa [setShSlot, List.getElem?_set_ne (fun hh => hds hh.symm)] using hxd
        have e : step st (.shMoveAssign i src) =
            release_strong_ref
              { st with shs := (st.shs.set src (some SH.null)).set i (some hs) } := by
          simp only [step, hg, hgs, hst1]
          simp [SH.release, hatt, setShSlot]
        rw [e, release_strong_strong]
        try simp
        omega
  · intro w hg
    constructor
    · intro hatt
      simp [step, hg, WH.release, hatt, setWhSlot]
    · intro hatt
      have hpos := weak_pos_of_att st hI i w hg hatt
      refine ⟨?_, ?_, ?_, ?_⟩
      · have e : step st (.wDestroy i) =
            release_weak_ref { st with whs := st.whs.set i none } := by
          simp [step, hg, WH.release, hatt, setWhSlot]
        rw [e, release_weak_weak]
        try simp
        omega
      · have e : step st (.wReset i) =
            release_weak_ref { st with whs := st.whs.set i (some ⟨none, false⟩) } := by
          simp [step, hg, WH.release, hatt, setWhSlot]
        rw [e, release_weak_weak]
        try simp
        omega
      · intro src ws hgs
        cases hatts : ws.att with
        | false =>
          have e : step st (.wCopyAssign i src) =
              release_weak_ref
                { st with whs := st.whs.set i (some ⟨ws.ptr, false⟩) } := by
            simp [step, hg, hgs, mkWeak, hatts, WH.release, hatt, setWhSlot]
          rw [e, release_weak_weak]
          simp [hatts]
          omega
        | true =>
          have e : step st (.wCopyAssign i src) =
              release_weak_ref
                { st with weak := st.weak + 1,
                          whs := st.whs.set i (some ⟨ws.ptr, true⟩) } := by
            simp [step, hg, hgs, mkWeak, hatts, add_weak_ref, WH.release, hatt,
              setWhSlot]
          rw [e, release_weak_weak]
          simp [hatts]
      · intro src ws hgs hds
        have hxd := (getWh_eq st i w).mp hg
        have hst1 : getWh (setWhSlot st src (some ⟨none, false⟩)) i = some w := by
          rw [getWh_eq]
          simpa [setWhSlot, List.getElem?_set_ne (fun hh => hds hh.symm)] using hxd
        have e : step st (.wMoveAssign i src) =
            release_weak_ref
              { st with whs := (st.whs.set src (some ⟨none, false⟩)).set i (some ws) } := by
          simp only [step, hg, hgs, hst1]
          simp [WH.release, hatt, setWhSlot]
        rw [e, release_weak_weak]
        try simp
        omega

theorem claim_C3_amended_witness :
    (use_count ⟨some 5, false⟩ (run (some 1) [.shReset 0, .shAliasCopy 0 (some 5)]) = 0 ∧
      step (run (some 1) [.shReset 0, .shAliasCopy 0 (some 5)]) (.shDestroy 1) =
        { run (some 1) [.shReset 0, .shAliasCopy 0 (some 5)] with
          shs := (run (some 1) [.shReset 0, .shAliasCopy 0 (some 5)]).shs.set 1 none }) ∧
    (step (run (some 1) []) (.shReset 0)).strong + 1 = (run (some 1) []).strong :=
  ⟨((claim_C3_amended (some 1) [.shReset 0, .shAliasCopy 0 (some 5)] 1).1
      ⟨some 5, false⟩ (by decide)).1 (by decide),
   (((claim_C3_amended (some 1) [] 0).1 ⟨some 1, true⟩ (by decide)).2
      (by decide)).2.2.1⟩

/-- Claim C8 counterexample: two live copies share the block
(`strong = 2`); move-assigning one onto the other releases the
destination's prior reference, so the block's strong count changes (2 to
1) — refuting "move assignment leaves the block's strong count
unchanged". -/
theorem claim_C8_counterexample :
    getSh (run (some 1) [.shCopy 0]) 0 = some ⟨some 1, true⟩ ∧
    getSh (run (some 1) [.shCopy 0]) 1 = some ⟨some 1, true⟩ ∧
    ¬ (step (run (some 1) [.shCopy 0]) (.shMoveAssign 1 0)).strong =
        (run (some 1) [.shCopy 0]).strong := by decide

/-- Claim C8 amended: move construction leaves the strong count unchanged
and leaves the moved-from handle with null observer pointer and null
block; copy construction of an attached handle increases the count by
exactly 1, and destroying an owner decreases it by exactly 1; copy
assignment adds exactly 1 and releases the destination's prior reference
(net `+1 - [dst attached]`); move assignment between distinct handles
nulls the source, transfers its fields, and changes the count only by the
release of the destination's prior reference (net `- [dst attached]`);
self-move-assignment leaves the state unchanged. -/
theorem claim_C8_amended (p0 : Ptr) (ops : List Op) :
    (∀ i h, getSh (run p0 ops) i = some h →
      (step (run p0 ops) (.shMove i)).strong = (run p0 ops).strong ∧
      getSh (step (run p0 ops) (.shMove i)) i = some SH.null ∧
      (step (run p0 ops) (.shMove i)).shs =
        ((run p0 ops).shs.set i (some SH.null)) ++ [some ⟨h.ptr, h.att⟩]) ∧
    (∀ i h, getSh (run p0 ops) i = some h → h.att = true →
      (step (run p0 ops) (.shCopy i)).strong = (run p0 ops).strong + 1 ∧
      (step (run p0 ops) (.shCopy i)).shs =
        (run p0 ops).shs ++ [some ⟨h.ptr, true⟩]) ∧
    (∀ i h, getSh (run p0 ops) i = some h → h.att = true →
      (step (run p0 ops) (.shDestroy i)).strong + 1 = (run p0 ops).strong) ∧
    (∀ dst src hd hs, getSh (run p0 ops) dst = some hd →
      getSh (run p0 ops) src = some hs → hs.att = true →
      (step (run p0 ops) (.shCopyAssign dst src)).strong +
          (if hd.att = true then 1 else 0) = (run p0 ops).strong + 1) ∧
    (∀ dst src hd hs, getSh (run p0 ops) dst = some hd →
      getSh (run p0 ops) src = some hs → ¬ dst = src →
      (step (run p0 ops) (.shMoveAssign dst src)).strong +
          (if hd.att = true then 1 else 0) = (run p0 ops).strong ∧
      getSh (step (run p0 ops) (.shMoveAssign dst src)) src = some SH.null ∧
      getSh (step (run p0 ops) (.shMoveAssign dst src)) dst = some hs) ∧
    (∀ i, step (run p0 ops) (.shMoveAssign i i) = run p0 ops) := by
  have hI := run_inv p0 ops
  revert hI
  generalize run p0 ops = st
  intro hI
  refine ⟨?_, ?_, ?_, ?_, ?_, ?_⟩
  · intro i h hg
    have hx := (getSh_eq st i h).mp hg
    have hlt : i < st.shs.length := (List.getElem?_eq_some_iff.mp hx).1
    have e : step st (.shMove i) =
        { st with shs := (st.shs.set i (some SH.null)) ++ [some ⟨h.ptr, h.att⟩] } := by
      simp [step, hg, pushSh, setShSlot]
    refine ⟨by rw [e], ?_, by rw [e]⟩
    rw [e, getSh_eq]
    rw [List.getElem?_append_left (by simpa using hlt)]
    exact List.getElem?_set_self hlt
  · intro i h hg hatt
    have e : step st (.shCopy i) =
        { st with strong := st.strong + 1, shs := st.shs ++ [some ⟨h.ptr, true⟩] } := by
      simp [step, hg, mkShared, hatt, add_strong_ref, pushSh]
    exact ⟨by rw [e], by rw [e]⟩
  · intro i h hg hatt
    have hpos := strong_pos_of_att st hI i h hg hatt
    have e : step st (.shDestroy i) =
        release_strong_ref { st with shs := st.shs.set i none } := by
      simp [step, hg, SH.release, hatt, setShSlot]
    rw [e, release_strong_strong]
    try simp
    omega
  · intro dst src hd hs hgd hgs hatts
    cases hattd : hd.att with
    | false =>
      have e : step st (.shCopyAssign dst src) =
          { st with strong := st.strong + 1,
                    shs := st.shs.set dst (some ⟨hs.ptr, true⟩) } := by
        simp [step, hgd, hgs, mkShared, hatts, add_strong_ref, SH.release, hattd,
          setShSlot]
      rw [e]
      simp
    | true =>
      have e : step st (.shCopyAssign dst src) =
          release_strong_ref
            { st with strong := st.strong + 1,
                      shs := st.shs.set dst (some ⟨hs.ptr, true⟩) } := by
        simp [step, hgd, hgs, mkShared, hatts, add_strong_ref, SH.release, hattd,
          setShSlot]
      rw [e, release_strong_strong]
      simp
  · intro dst src hd hs hgd hgs hds
    have hxd := (getSh_eq st dst hd).mp hgd
    have hxs := (getSh_eq st src hs).mp hgs
    have hltd : dst < st.shs.length := (List.getElem?_eq_some_iff.mp hxd).1
    have hlts : src < st.shs.length := (List.getElem?_eq_some_iff.mp hxs).1
    have hst1 : getSh (setShSlot st src (some SH.null)) dst = some hd := by
      rw [getSh_eq]
      simpa [setShSlot, List.getElem?_set_ne (fun hh => hds hh.symm)] using hxd
    have hsrc : ((st.shs.set src (some SH.null)).set dst (some hs))[src]? =
        some (some SH.null) := by
      rw [List.getElem?_set_ne hds]
      exact List.getElem?_set_self hlts
    have hdst : ((st.shs.set src (some SH.null)).set dst (some hs))[dst]? =
        some (some hs) := by
      exact List.getElem?_set_self (by simpa using hltd)
    cases hattd : hd.att with
    | false =>
      have e : step st (.shMoveAssign dst src) =
          { st with shs := (st.shs.set src (some SH.null)).set dst (some hs) } := by
        simp only [step, hgd, hgs, hst1]
        simp [SH.release, hattd, setShSlot]
      refine ⟨by rw [e]; simp, ?_, ?_⟩
      · rw [e, getSh_eq]
        exact hsrc
      · rw [e, getSh_eq]
        exact hdst
    | true =>
      have e : step st (.shMoveAssign dst src) =
          release_strong_ref
            { st with shs := (st.shs.set src (some SH.null)).set dst (some hs) } := by
        simp only [step, hgd, hgs, hst1]
        simp [SH.release, hattd, setShSlot]
      have hpos := strong_pos_of_att st hI dst hd hgd hattd
      refine ⟨?_, ?_, ?_⟩
      · rw [e, release_strong_strong]
        try simp
        omega
      · rw [e, getSh_eq, (release_strong_fields _).1]
        exact hsrc
      · rw [e, getSh_eq, (release_strong_fields _).1]
        exact hdst
  · intro i
    cases hg : getSh st i with
    | none => simp [step, hg]
    | some hd =>
      have hx := (getSh_eq st i hd).mp hg
      have hlt : i < st.shs.length := (List.getElem?_eq_some_iff.mp hx).1
      have hst1 : getSh (setShSlot st i (some SH.null)) i = some SH.null := by
        rw [getSh_eq]
        simp [setShSlot, List.getElem?_set_self hlt]
      have e : step st (.shMoveAssign i i) =
          setShSlot (setShSlot st i (some SH.null)) i (some hd) := by
        simp only [step, hg, hst1]
        simp [SH.release, SH.null]
      have e2 : setShSlot (setShSlot st i (some SH.null)) i (some hd) = st := by
        have h3 : st.shs.set i (some hd) = st.shs := set_getElem_id st.shs i (some hd) hx
        simp [setShSlot, List.set_set, h3]
      rw [e, e2]

theorem claim_C8_amended_witness :
    (step (run (some 1) []) (.shMove 0)).strong = (run (some 1) []).strong ∧
    getSh (step (run (some 1) []) (.shMove 0)) 0 = some SH.null :=
  ⟨((claim_C8_amended (some 1) []).1 0 ⟨some 1, true⟩ (by decide)).1,
   ((claim_C8_amended (some 1) []).1 0 ⟨some 1, true⟩ (by decide)).2.1⟩

/-- Claim C6: `reset()` and `reset(new_ptr[, deleter])` release the
handle's previous resource exactly once (the tracked block's strong count
drops by exactly 1 when the handle was attached, and nothing changes when
it was not), and if constructing the replacement handle fails the handle's
state — observer pointer, block field, and the tracked block's counters —
is unchanged by the call, because the failure propagates before any swap
(the deleter is invoked on the new pointer exactly once). -/
theorem claim_C6_reset (st : St) (i : Nat) (h : SH) (p : Ptr)
    (hInv : InvSt st) (hg : getSh st i = some h) :
    ((step st (.shReset i)).shs = st.shs.set i (some SH.null) ∧
      (h.att = true → (step st (.shReset i)).strong + 1 = st.strong) ∧
      (h.att = false →
        step st (.shReset i) = { st with shs := st.shs.set i (some SH.null) })) ∧
    (reset_new true st i p =
        (SH.release h (setShSlot st i (some ⟨p, false⟩)), [], true) ∧
      (h.att = true → (reset_new true st i p).1.strong + 1 = st.strong) ∧
      (reset_new true st i p).1.shs = st.shs.set i (some ⟨p, false⟩)) ∧
    reset_new false st i p = (st, [p], false) := by
  refine ⟨⟨?_, ?_, ?_⟩, ⟨?_, ?_, ?_⟩, ?_⟩
  · cases hatt : h.att with
    | false => simp [step, hg, SH.release, hatt, setShSlot]
    | true =>
      have e : step st (.shReset i) =
          release_strong_ref { st with shs := st.shs.set i (some SH.null) } := by
        simp [step, hg, SH.release, hatt, setShSlot]
      rw [e, (release_strong_fields _).1]
  · intro hatt
    have hpos := strong_pos_of_att st hInv i h hg hatt
    have e : step st (.shReset i) =
        release_strong_ref { st with shs := st.shs.set i (some SH.null) } := by
      simp [step, hg, SH.release, hatt, setShSlot]
    rw [e, release_strong_strong]
    try simp
    omega
  · intro hatt
    simp [step, hg, SH.release, hatt, setShSlot]
  · simp [reset_new, hg]
  · intro hatt
    have hpos := strong_pos_of_att st hInv i h hg hatt
    have e2 : (reset_new true st i p).1 =
        release_strong_ref { st with shs := st.shs.set i (some ⟨p, false⟩) } := by
      simp [reset_new, hg, SH.release, hatt, setShSlot]
    rw [e2, release_strong_strong]
    try simp
    omega
  · cases hatt : h.att with
    | false => simp [reset_new, hg, SH.release, hatt, setShSlot]
    | true =>
      have e2 : (reset_new true st i p).1 =
          release_strong_ref { st with shs := st.shs.set i (some ⟨p, false⟩) } := by
        simp [reset_new, hg, SH.release, hatt, setShSlot]
      rw [e2, (release_strong_fields _).1]
  · simp [reset_new]

theorem claim_C6_witness :
    (step (run (some 1) []) (.shReset 0)).strong + 1 = (run (some 1) []).strong ∧
    reset_new false (run (some 1) []) 0 (some 7) = (run (some 1) [], [some 7], false) :=
  ⟨(claim_C6_reset (run (some 1) []) 0 ⟨some 1, true⟩ (some 7) (by decide)
      (by decide)).1.2.1 (by decide),
   (claim_C6_reset (run (some 1) []) 0 ⟨some 1, true⟩ (some 7) (by decide)
      (by decide)).2.2⟩

/-- Claim C5: for every shared handle constructed from a raw pointer and a
destruction action, if allocating the control block fails, the destruction
action is invoked on that raw pointer exactly once and the allocation
failure is then propagated to the caller, leaving no handle owning the
pointer (also: on success the action is not invoked during
construction). -/
theorem claim_C5_alloc_failure (p : Ptr) :
    (sharedFromRaw false p).deleterCalls = [p] ∧
    (sharedFromRaw false p).result = none ∧
    (sharedFromRaw true p).deleterCalls = [] := by
  unfold sharedFromRaw
  simp

/-- Claim C7: `make_shared<T>(args...)` returns a handle whose `get()` is
the address of the object constructed in the block's embedded storage from
the forwarded arguments, with `use_count()` equal to 1 (the block's
initial strong count is adopted without an extra increment), and the
embedded object holds exactly the constructed value. -/
theorem claim_C7_make_shared {α : Type} (addr : Nat) (a : α) :
    (make_shared addr a).use_count = 1 ∧
    (make_shared addr a).get = some ((inplace_control_block addr a).get_ptr) ∧
    (make_shared addr a).cb = some (inplace_control_block addr a) ∧
    (inplace_control_block addr a).data = a :=
  ⟨rfl, rfl, rfl, rfl⟩

/-- Claim C9: `a == b` holds exactly when `a.get()` equals `b.get()`,
regardless of control blocks; two aliasing handles sharing one block
(`att = true` for both) compare unequal when their observer pointers
differ; comparison with the null sentinel holds exactly when `get()` is
null. -/
theorem claim_C9_eq_observer (a b : SH) :
    (shEq a b = true ↔ SH.get a = SH.get b) ∧
    (a.att = true → b.att = true → ¬ SH.get a = SH.get b → shEq a b = false) ∧
    (shEqNull a = true ↔ SH.get a = none) := by
  refine ⟨?_, ?_, ?_⟩
  · simp [shEq, beq_iff_eq]
  · intro h1 h2 hne
    simpa [shEq] using hne
  · simp [shEqNull, beq_iff_eq]

theorem claim_C9_witness :
    shEq ⟨some 1, true⟩ ⟨some 2, true⟩ = false :=
  (claim_C9_eq_observer ⟨some 1, true⟩ ⟨some 2, true⟩).2.1 rfl rfl (by decide)

/-- Claim C10: a shared handle constructed from a null raw pointer (with
or without an explicit destruction action — both run the same constructor)
still allocates a control block: its `use_count()` is 1, its boolean
conversion is false, and its `get()` is null; so `use_count() == 0` does
not follow from the handle being null-valued. -/
theorem claim_C10_null_raw_pointer :
    (sharedFromRaw true none).result.map SHr.use_count = some 1 ∧
    (sharedFromRaw true none).result.map SHr.toBool = some false ∧
    (sharedFromRaw true none).result.map SHr.get = some none := by decide

end SharedPtr
